import Mathlib

/-!
Verification development for the libvssdag signal-processing core.

Each definition below is a shallow embedding of a function of the C++/Lua
source (file and function named in its doc comment).  Machine integers are
modelled as `Nat` with explicit masks where overflow or masking matters;
`double` values flowing through the decoder and the Lua boundary are
modelled as `ℚ`; fallible operations return `Option`.
-/

namespace Vssdag

/-- The `vss::types::SignalQuality` tag.  The numeric codes (0..5) are part of
the external contract (scripts observe them as integers). -/
inductive SignalQuality where
  | UNKNOWN
  | VALID
  | INVALID
  | NOT_AVAILABLE
  | STALE
  | OUT_OF_RANGE
deriving DecidableEq, Repr

/-- Integer code of a quality tag, as exposed to Lua
(`STATUS_UNKNOWN = 0`, ..., `STATUS_OUT_OF_RANGE = 5`). -/
def SignalQuality.code : SignalQuality → Nat
  | .UNKNOWN => 0
  | .VALID => 1
  | .INVALID => 2
  | .NOT_AVAILABLE => 3
  | .STALE => 4
  | .OUT_OF_RANGE => 5

/-! ## Wire decoder: per-signal quality determination (C2)

From `src/include/vssdag/can/dbc_parser.h` (`DBCParser::SignalInfo`) and
`src/src/can/dbc_parser.cpp` (`DBCParser::parse`). -/

/-- Embedding of `DBCParser::SignalInfo`: pre-calculated sentinel patterns, their
usability flags and the declared physical range of one DBC signal. -/
structure SignalInfo where
  invalid_raw_value : Nat
  na_raw_value : Nat
  can_use_invalid_pattern : Bool
  can_use_na_pattern : Bool
  min_physical : ℚ
  max_physical : ℚ
deriving Repr, DecidableEq

/-- The parse-time pre-calculation done per signal in `DBCParser::parse`:
`max_possible_raw = (bit_size >= 64) ? UINT64_MAX : ((1ULL << bit_size) - 1)`,
the invalid pattern is that value, the NA pattern is that value minus one,
and each pattern is usable iff the physical value it decodes to lies
outside `[Minimum(), Maximum()]`.  `rawToPhys` abstracts dbcppp's
`RawToPhys` (factor/offset scaling). -/
def parseSignalInfo (bit_size : Nat) (rawToPhys : Nat → ℚ) (minP maxP : ℚ) : SignalInfo :=
  let max_possible_raw : Nat := if 64 ≤ bit_size then 2 ^ 64 - 1 else 2 ^ bit_size - 1
  let physical_invalid := rawToPhys max_possible_raw
  let physical_na := rawToPhys (max_possible_raw - 1)
  { invalid_raw_value := max_possible_raw
    na_raw_value := max_possible_raw - 1
    min_physical := minP
    max_physical := maxP
    can_use_invalid_pattern := decide (physical_invalid < minP ∨ maxP < physical_invalid)
    can_use_na_pattern := decide (physical_na < minP ∨ maxP < physical_na) }

/-- Embedding of `DBCParser::SignalInfo::check_status`: the per-decode quality cascade. -/
def SignalInfo.check_status (info : SignalInfo) (raw : Nat) (phys : ℚ) : SignalQuality :=
  if info.can_use_invalid_pattern = true ∧ raw = info.invalid_raw_value then
    .INVALID
  else if info.can_use_na_pattern = true ∧ raw = info.na_raw_value then
    .NOT_AVAILABLE
  else if phys < info.min_physical ∨ info.max_physical < phys then
    .INVALID
  else
    .VALID

/-- The quality assignment as the specification states it in words
(spec §4.B): sentinels `(1 << bit_size) - 1` and that minus one, each
usable iff the physical value it decodes to lies outside `[min, max]`;
then the INVALID / NOT_AVAILABLE / range / VALID cascade.  This is the
spec-side definition, to be compared with the code-side
`SignalInfo.check_status` over `parseSignalInfo`. -/
def specQuality (bit_size : Nat) (rawToPhys : Nat → ℚ) (minP maxP : ℚ)
    (raw : Nat) (phys : ℚ) : SignalQuality :=
  let invalid_raw := 2 ^ bit_size - 1
  let na_raw := invalid_raw - 1
  let usableInv := rawToPhys invalid_raw < minP ∨ maxP < rawToPhys invalid_raw
  let usableNa := rawToPhys na_raw < minP ∨ maxP < rawToPhys na_raw
  if usableInv ∧ raw = invalid_raw then .INVALID
  else if usableNa ∧ raw = na_raw then .NOT_AVAILABLE
  else if phys < minP ∨ maxP < phys then .INVALID
  else .VALID

/-- Claim C2.  For every decoded signal of raw width at most 64 bits, the
decoder's quality cascade computed from the parse-time signal info agrees
exactly with the specified assignment: INVALID on a usable all-ones
sentinel, else NOT_AVAILABLE on a usable all-ones-minus-one sentinel, else
INVALID outside `[min, max]`, else VALID, with usability meaning the
sentinel's physical value lies outside the declared range. -/
theorem check_status_eq_specQuality (bit_size : Nat) (rawToPhys : Nat → ℚ)
    (minP maxP : ℚ) (raw : Nat) (phys : ℚ) (hbs : bit_size ≤ 64) :
    (parseSignalInfo bit_size rawToPhys minP maxP).check_status raw phys =
      specQuality bit_size rawToPhys minP maxP raw phys := by
  have hmax : (if 64 ≤ bit_size then 2 ^ 64 - 1 else 2 ^ bit_size - 1) = 2 ^ bit_size - 1 := by
    rcases lt_or_eq_of_le hbs with h | h
    · simp [Nat.not_le_of_lt h]
    · simp [h]
  simp only [SignalInfo.check_status, parseSignalInfo, specQuality, hmax,
    decide_eq_true_eq]

/-- Witness for C2 at the spec's concrete scenario 1 (`ErrorCode`: 8-bit,
range [0, 253], identity scaling, raw byte 0xFF). -/
theorem check_status_eq_specQuality_witness :
    (8 : Nat) ≤ 64 ∧
      (parseSignalInfo 8 (fun n => (n : ℚ)) 0 253).check_status 255 255 =
        specQuality 8 (fun n => (n : ℚ)) 0 253 255 255 :=
  ⟨by norm_num, check_status_eq_specQuality 8 (fun n => (n : ℚ)) 0 253 255 255 (by norm_num)⟩

/-! ## Wire decoder: message-ID matching (C7)

From `src/src/can/dbc_parser.cpp` (`decode_message_as_updates`,
`has_message`).  `id & 0x1FFFFFFF` is the low-29-bit mask, written here as
`% 2 ^ 29`. -/

/-- One message of the parsed DBC network, as the matching loops view it:
its CAN id and its signals (`α` abstracts dbcppp's signal objects). -/
structure DBCMessage (α : Type) where
  id : Nat
  signals : List α

/-- Embedding of `DBCParser::decode_message_as_updates`: walk the messages, take the
first whose masked id equals the masked frame id (`(msg.Id() & CAN_EFF_MASK)
== (can_id & CAN_EFF_MASK)`, the loop breaks after it), decode each of its
signals; with no match the result is empty.  `decodeSig` abstracts the
per-signal bit extraction and typing. -/
def decode_message_as_updates {α β : Type} (net : List (DBCMessage α))
    (decodeSig : α → β) (can_id : Nat) : List β :=
  match net.find? (fun m => m.id % 2 ^ 29 == can_id % 2 ^ 29) with
  | some m => m.signals.map decodeSig
  | none => []

/-- Embedding of `DBCParser::has_message`: walk the messages and report whether one has
exactly the given id (`msg.Id() == can_id`, no masking). -/
def has_message {α : Type} (net : List (DBCMessage α)) (can_id : Nat) : Bool :=
  net.any (fun m => m.id == can_id)

/-- A one-message network whose message id carries the extended-frame flag
(0x80000001 = 2147483649), as dbcppp stores extended ids. -/
def extFlagNet : List (DBCMessage Nat) := [⟨2147483649, [7]⟩]

/-- Claim C7, counterexample.  With a message stored under id 0x80000001,
`decode(0x00000001, data)` matches the message (the masked ids agree), yet
`has_message(0x00000001)` is `false`: the exact comparison in
`has_message` does not strip the extended-frame flag, refuting the claim
that the same masked comparison governs `has_message`. -/
theorem has_message_not_masked :
    decode_message_as_updates extFlagNet (fun s => s) 1 = [7] ∧
      has_message extFlagNet 1 = false := by
  constructor
  · rfl
  · rfl

/-- Claim C7, amended.  `decode` matches by the masked comparison — a frame
id with no masked match yields the empty sequence, and a nonempty result
implies a masked match — while `has_message` is governed by exact
(unmasked) equality of the stored message id. -/
theorem decode_masked_has_message_exact {α β : Type} (net : List (DBCMessage α))
    (decodeSig : α → β) (can_id : Nat) :
    ((¬ ∃ m ∈ net, m.id % 2 ^ 29 = can_id % 2 ^ 29) →
        decode_message_as_updates net decodeSig can_id = []) ∧
      (decode_message_as_updates net decodeSig can_id ≠ [] →
        ∃ m ∈ net, m.id % 2 ^ 29 = can_id % 2 ^ 29) ∧
      (has_message net can_id = true ↔ ∃ m ∈ net, m.id = can_id) := by
  refine ⟨?_, ?_, ?_⟩
  · intro hno
    unfold decode_message_as_updates
    cases hfind : net.find? (fun m => m.id % 2 ^ 29 == can_id % 2 ^ 29) with
    | none => rfl
    | some m =>
        exfalso
        exact hno ⟨m, List.mem_of_find?_eq_some hfind,
          by simpa using List.find?_some hfind⟩
  · intro hne
    simp only [decode_message_as_updates] at hne
    cases hfind : net.find? (fun m => m.id % 2 ^ 29 == can_id % 2 ^ 29) with
    | none => rw [hfind] at hne; exact absurd rfl hne
    | some m =>
        exact ⟨m, List.mem_of_find?_eq_some hfind,
          by simpa using List.find?_some hfind⟩
  · simp [has_message]

/-- Witness for C7's amended theorem at the counterexample network. -/
theorem decode_masked_has_message_exact_witness :
    (decode_message_as_updates extFlagNet (fun s => s) 5 ≠ [] →
        ∃ m ∈ extFlagNet, m.id % 2 ^ 29 = 5 % 2 ^ 29) ∧
      (has_message extFlagNet 2147483649 = true ↔
        ∃ m ∈ extFlagNet, m.id = 2147483649) :=
  ⟨(decode_masked_has_message_exact extFlagNet (fun s => s) 5).2.1,
    (decode_masked_has_message_exact extFlagNet (fun s => s) 2147483649).2.2⟩

/-! ## Signal source ingress (C4)

From `src/src/can/can_signal_source.cpp` (`CANSignalSource::handle_can_frame`,
`CANSignalSource::poll`) and `src/include/vssdag/signal_source.h`
(`SignalUpdate`). -/

/-- The `vssdag::SignalStatus` enumeration (signal_source.h). -/
inductive SignalStatus where
  | Valid
  | Invalid
  | NotAvailable
deriving DecidableEq, Repr

/-- Embedding of `DBCSignalUpdate` (dbc_types.h): one decoded signal as produced by
`decode_message_as_updates`, carrying the per-signal quality that
`SignalInfo::check_status` computed. -/
structure DBCUpdate (V : Type) where
  dbc_signal_name : String
  value : V
  status : SignalQuality
  has_enums : Bool
deriving DecidableEq, Repr

/-- Embedding of `SignalUpdate` (signal_source.h): the record enqueued on the
lock-free queue.  In the struct the `status` member carries the default
member initializer `SignalStatus::Valid`. -/
structure QueuedUpdate (V : Type) where
  signal_name : String
  value : V
  timestamp : Nat
  status : SignalStatus
deriving DecidableEq, Repr

/-- Embedding of `CANSignalSource::handle_can_frame`: drop frames whose id is not
subscribed; otherwise, for each decoded update whose DBC name the mapping
table translates, enqueue `SignalUpdate{it->second, dbc_update.value,
timestamp}` — aggregate initialization that leaves the fourth member
(`status`) at its default `Valid`; the decoded `dbc_update.status` is not
copied. -/
def handle_can_frame {V : Type} (required_can_ids : List Nat) (frame_id : Nat)
    (dbc_to_signal_name : String → Option String)
    (decoded : List (DBCUpdate V)) (ts : Nat) : List (QueuedUpdate V) :=
  if required_can_ids.contains frame_id then
    decoded.filterMap fun u =>
      (dbc_to_signal_name u.dbc_signal_name).map fun n =>
        { signal_name := n, value := u.value, timestamp := ts, status := .Valid }
  else []

/-- Embedding of `CANSignalSource::poll`: drain up to `max_batch_size = 100` queued
updates in enqueue order. -/
def poll {V : Type} (queue : List (QueuedUpdate V)) : List (QueuedUpdate V) :=
  queue.take 100

/-- Claim C4.  Every update that `handle_can_frame` enqueues — and hence
every update `poll` returns from a queue of such updates — carries
`status = Valid`, regardless of the quality the DBC decoder attached to
the decoded signal. -/
theorem enqueued_update_status_valid {V : Type} (required_can_ids : List Nat)
    (frame_id : Nat) (dbc_to_signal_name : String → Option String)
    (decoded : List (DBCUpdate V)) (ts : Nat) (u : QueuedUpdate V)
    (hu : u ∈ poll (handle_can_frame required_can_ids frame_id
      dbc_to_signal_name decoded ts)) :
    u.status = .Valid := by
  have hu' : u ∈ handle_can_frame required_can_ids frame_id
      dbc_to_signal_name decoded ts := List.mem_of_mem_take hu
  unfold handle_can_frame at hu'
  split at hu'
  · rcases List.mem_filterMap.mp hu' with ⟨d, _, hd⟩
    rcases Option.map_eq_some'.mp hd with ⟨n, _, rfl⟩
    rfl
  · simp at hu'

/-- Witness for C4: a decoded update with quality INVALID is enqueued with
status Valid. -/
theorem enqueued_update_status_valid_witness :
    (⟨"Speed", 255, 0, .Valid⟩ : QueuedUpdate Nat) ∈
        poll (handle_can_frame [291] 291
          (fun s => if s = "DBC_Speed" then some "Speed" else none)
          [⟨"DBC_Speed", 255, .INVALID, false⟩] 0) ∧
      (⟨"Speed", 255, 0, .Valid⟩ : QueuedUpdate Nat).status = .Valid :=
  ⟨by decide, enqueued_update_status_valid [291] 291
    (fun s => if s = "DBC_Speed" then some "Speed" else none)
    [⟨"DBC_Speed", 255, .INVALID, false⟩] 0 ⟨"Speed", 255, 0, .Valid⟩ (by decide)⟩

/-! ## Script bridge: generated transforms (C1, C3, C10)

From `src/src/signal_processor.cpp` (`create_vss_signal` in the Lua
infrastructure of `setup_lua_environment`, and
`SignalProcessorDAG::generate_transform_function`) and
`src/src/lua_mapper.cpp` (`LuaMapper::extract_vss_signal_from_stack`). -/

/-- A Lua value at the script boundary (the subset the transform wrappers
manipulate). -/
inductive LuaVal where
  | nil
  | num (q : ℚ)
  | str (s : String)
  | boolean (b : Bool)
deriving DecidableEq, Repr

/-- Lua's `a or b`: `b` when `a` is nil or false, else `a`.  Used for
`status = status or STATUS_VALID` and
`signal_status[name] or STATUS_VALID`. -/
def LuaVal.orDefault (v d : LuaVal) : LuaVal :=
  match v with
  | .nil => d
  | .boolean false => d
  | _ => v

/-- The declared datatype of a mapping (`ValueType`); only the
float/double comparison matters inside `create_vss_signal`. -/
inductive ValueType where
  | UNSPECIFIED
  | STRING
  | BOOL
  | INT32
  | INT64
  | UINT32
  | UINT64
  | FLOAT
  | DOUBLE
  | STRUCT
deriving DecidableEq, Repr

/-- The `{path, value, type, status}` table a generated transform
returns. -/
structure LuaRecord where
  path : String
  value : LuaVal
  type : ValueType
  status : LuaVal
deriving DecidableEq, Repr

/-- The status computation of `create_vss_signal`: default to
`STATUS_VALID` (= 1); if the value is nil while the status is
`STATUS_VALID`, force `STATUS_INVALID` (= 2). -/
def vssStatusOf (value status : LuaVal) : LuaVal :=
  let s := status.orDefault (.num 1)
  if value = .nil ∧ s = .num 1 then .num 2 else s

/-- The float-noise cleanup of `create_vss_signal`: for float/double
datatypes a numeric value with `math.abs(value) < 1e-6` becomes 0. -/
def cleanFloat (datatype : ValueType) (value : LuaVal) : LuaVal :=
  match value with
  | .num q =>
      if (datatype = .FLOAT ∨ datatype = .DOUBLE) ∧ |q| < 1 / 1000000 then
        .num 0
      else
        .num q
  | v => v

/-- The function `create_vss_signal(path, value, datatype, status)` of the Lua
infrastructure: status defaulting and nil-forcing per `vssStatusOf`,
float-noise cleanup per `cleanFloat`, returning the
`{path, value, type, status}` record. -/
def create_vss_signal (path : String) (value : LuaVal) (datatype : ValueType)
    (status : LuaVal) : LuaRecord :=
  { path := path
    value := cleanFloat datatype value
    type := datatype
    status := vssStatusOf value status }

/-- Map an integer status code back to a quality tag
(`static_cast<SignalQuality>(status_val)`; the generated code only
produces codes 0..5). -/
def SignalQuality.ofInt : Int → SignalQuality
  | 0 => .UNKNOWN
  | 1 => .VALID
  | 2 => .INVALID
  | 3 => .NOT_AVAILABLE
  | 4 => .STALE
  | 5 => .OUT_OF_RANGE
  | _ => .UNKNOWN

/-- The status-field handling of `LuaMapper::extract_vss_signal_from_stack`
(lines 347–360): an integer or numeric status is cast to `SignalQuality`;
anything else — including a non-numeric string such as `'invalid'` —
falls to the default `SignalQuality::VALID`. -/
def extractQuality (status : LuaVal) : SignalQuality :=
  match status with
  | .num q => .ofInt ⌊q⌋
  | _ => .VALID

/-- Lua `tostring` on the model values (used for the ValueMapping key
lookup; marshalled numbers stringify to their decimal form). -/
def luaToString : LuaVal → String
  | .nil => "nil"
  | .num q => if q.den = 1 then toString q.num else toString q
  | .str s => s
  | .boolean b => if b then "true" else "false"

/-- Generated Code-transform wrapper for an *input* node: reads
`signal_status[name] or STATUS_VALID`, replaces `x` by nil when that
status is not `STATUS_VALID`, evaluates the user expression on `x` and
returns `create_vss_signal(name, result, datatype, my_status)`.  `expr`
abstracts the user's Lua expression. -/
def transformCode_input (name : String) (dt : ValueType) (sigStatus : LuaVal)
    (value : LuaVal) (expr : LuaVal → LuaVal) : LuaRecord :=
  let my_status := sigStatus.orDefault (.num 1)
  let x := if my_status ≠ .num 1 then LuaVal.nil else value
  let result := expr x
  create_vss_signal name result dt my_status

/-- Generated Code-transform wrapper for a *derived* node: `my_status`
starts at `STATUS_VALID`, the user expression is evaluated over `deps`
(abstracted as its result `result`), and a nil result forces
`STATUS_INVALID`. -/
def transformCode_derived (name : String) (dt : ValueType) (result : LuaVal) :
    LuaRecord :=
  let my_status : LuaVal := .num 1
  let my_status := if result = .nil then LuaVal.num 2 else my_status
  create_vss_signal name result dt my_status

/-- The ValueMapping lookup of the generated wrapper: first
`mapping_table[tostring(value)]`, then — when the value is a number — the
`tonumber(k) == value` fallback over the keys.  The table's target values
were already parsed at generation time (booleans, numbers via `stod`, else
strings); `tonum` abstracts Lua's `tonumber` on keys. -/
def valueMappingLookup (tonum : String → Option ℚ)
    (table : List (String × LuaVal)) (value : LuaVal) : LuaVal :=
  match table.find? (fun kv => kv.1 = luaToString value) with
  | some kv => kv.2
  | none =>
      match value with
      | .num q =>
          match table.find? (fun kv => tonum kv.1 = some q) with
          | some kv => kv.2
          | none => .nil
      | _ => .nil

/-- Generated ValueMapping wrapper (both node kinds).  For an input node
`my_status` is `signal_status[name] or STATUS_VALID` — the *value itself
is not replaced by nil* when the status is non-VALID.  For a derived node
a nil lookup result sets `my_status` to the Lua *string* `'invalid'`
(verbatim from the generated source), not to `STATUS_INVALID`. -/
def transformValueMapping (is_input : Bool) (name : String) (dt : ValueType)
    (sigStatus : LuaVal) (value : LuaVal) (tonum : String → Option ℚ)
    (table : List (String × LuaVal)) : LuaRecord :=
  let my_status := if is_input then sigStatus.orDefault (.num 1) else .num 1
  let result := valueMappingLookup tonum table value
  let my_status :=
    if is_input = false ∧ result = .nil then LuaVal.str "invalid" else my_status
  create_vss_signal name result dt my_status

/-- Generated DirectMapping wrapper: for an input node the result is the
incoming value, nilled out when the node's status is not `STATUS_VALID`;
for a derived node the result is always nil with `STATUS_INVALID`
("DirectMapping not valid for derived signals"). -/
def transformDirect (is_input : Bool) (name : String) (dt : ValueType)
    (sigStatus : LuaVal) (value : LuaVal) : LuaRecord :=
  if is_input then
    let my_status := sigStatus.orDefault (.num 1)
    let result := if my_status ≠ .num 1 then LuaVal.nil else value
    create_vss_signal name result dt my_status
  else
    create_vss_signal name .nil dt (.num 2)

/-- A `tonumber` instance used in the concrete counterexamples below. -/
def tonumDigit : String → Option ℚ :=
  fun s => if s = "0" then some 0 else if s = "1" then some 1 else none

/-- Claim C1, code-bug exhibit.  A derived ValueMapping node whose lookup
misses (table has key "1", the observed value is 0) returns an *empty*
result, yet the emitted quality extracted from the record is `VALID`:
the generated code sets the status to the string `'invalid'`, which
`extract_vss_signal_from_stack` does not recognise and replaces by the
default `VALID` — contradicting the claim that an empty result forces
quality INVALID for every transform kind. -/
theorem valuemapping_derived_empty_emits_valid :
    (transformValueMapping false "Vehicle.Mode" .STRING .nil (.num 0) tonumDigit
        [("1", .str "ON")]).value = .nil ∧
      extractQuality (transformValueMapping false "Vehicle.Mode" .STRING .nil
        (.num 0) tonumDigit [("1", .str "ON")]).status = .VALID ∧
      (transformValueMapping false "Vehicle.Mode" .STRING .nil (.num 0) tonumDigit
        [("1", .str "ON")]).status = .str "invalid" := by
  refine ⟨rfl, rfl, rfl⟩

/-- Claim C3, counterexample.  For an input ValueMapping node with status
`STATUS_INVALID` (= 2), the generated wrapper consults the raw marshalled
value, not nil: with table `{["0"] = "OFF"}` and observed value 0 the
lookup succeeds and yields "OFF", whereas the same transform applied to
nil yields nil — so the script does *not* observe the empty marker for a
non-VALID input, refuting the claim for the ValueMapping kind. -/
theorem valuemapping_input_not_nilled :
    (transformValueMapping true "Door.Status" .STRING (.num 2) (.num 0) tonumDigit
        [("0", .str "OFF")]).value = .str "OFF" ∧
      (transformValueMapping true "Door.Status" .STRING (.num 2) .nil tonumDigit
        [("0", .str "OFF")]).value = .nil := by
  refine ⟨rfl, rfl⟩

/-- Claim C3, amended.  For the Code and Direct transform kinds, when an
input node's status is not `STATUS_VALID` the generated wrapper replaces
the observed value by nil: the produced record does not depend on the
marshalled input at all (it equals the record produced from a nil input).
The ValueMapping kind, by contrast, consults the raw marshalled value
(see the counterexample). -/
theorem nonvalid_input_masked_code_direct (name : String) (dt : ValueType)
    (sigStatus : LuaVal) (value : LuaVal) (expr : LuaVal → LuaVal)
    (h : sigStatus.orDefault (.num 1) ≠ .num 1) :
    transformCode_input name dt sigStatus value expr =
        transformCode_input name dt sigStatus .nil expr ∧
      transformDirect true name dt sigStatus value =
        transformDirect true name dt sigStatus .nil := by
  constructor
  · unfold transformCode_input
    simp only [if_pos h]
  · unfold transformDirect
    simp only [if_pos h, if_true]

/-- Witness for C3's amended theorem: an INVALID input (status code 2)
yields the same record as a nil input, for both kinds. -/
theorem nonvalid_input_masked_code_direct_witness :
    (LuaVal.num 2).orDefault (.num 1) ≠ .num 1 ∧
      (transformCode_input "Speed" .DOUBLE (.num 2) (.num 25) (fun x => x) =
          transformCode_input "Speed" .DOUBLE (.num 2) .nil (fun x => x) ∧
        transformDirect true "Speed" .DOUBLE (.num 2) (.num 25) =
          transformDirect true "Speed" .DOUBLE (.num 2) .nil) :=
  ⟨by decide, nonvalid_input_masked_code_direct "Speed" .DOUBLE (.num 2)
    (.num 25) (fun x => x) (by decide)⟩

/-- Claim C10, counterexample.  A *derived* node with the Direct transform is
not the identity: with input value 5 the generated wrapper produces the
empty value with status `STATUS_INVALID`, refuting the claim that the
identity behaviour applies to every node declared with a Direct
transform. -/
theorem direct_derived_not_identity :
    (transformDirect false "Derived.X" .INT64 .nil (.num 5)).value = .nil ∧
      (transformDirect false "Derived.X" .INT64 .nil (.num 5)).status = .num 2 := by
  refine ⟨rfl, rfl⟩

/-- Evaluation lemma: the status value `STATUS_VALID` extracts to quality
VALID. -/
theorem extractQuality_one : extractQuality (.num 1) = .VALID := by
  norm_num [extractQuality, SignalQuality.ofInt]

/-- Evaluation lemma: the status value `STATUS_INVALID` extracts to
quality INVALID. -/
theorem extractQuality_two : extractQuality (.num 2) = .INVALID := by
  norm_num [extractQuality, SignalQuality.ofInt]

/-- Evaluation lemma: a non-nil value with explicit `STATUS_VALID` keeps
status `STATUS_VALID` through `create_vss_signal`. -/
theorem vssStatusOf_not_nil (v : LuaVal) (h : v ≠ .nil) :
    vssStatusOf v (.num 1) = .num 1 := by
  simp [vssStatusOf, LuaVal.orDefault, h]

/-- Claim C10, amended.  The Direct transform is the identity for *input*
nodes with VALID status, as long as the float-noise cleanup does not fire
(datatype not float/double, or the value not a number below `1e-6` in
magnitude): the returned record carries exactly the received value with
quality VALID.  An input node with non-VALID status yields nil, and a
derived Direct node always yields nil with `STATUS_INVALID`. -/
theorem direct_input_identity (name : String) (dt : ValueType)
    (sigStatus : LuaVal) (value : LuaVal)
    (hst : sigStatus.orDefault (.num 1) = .num 1)
    (hclean : ∀ q : ℚ, value = .num q →
      (dt = .FLOAT ∨ dt = .DOUBLE) → 1 / 1000000 ≤ |q|) :
    (transformDirect true name dt sigStatus value).value = value ∧
      extractQuality (transformDirect true name dt sigStatus value).status =
        .VALID ∨
      value = .nil ∧
        extractQuality (transformDirect true name dt sigStatus value).status =
          .INVALID := by
  have h1 : transformDirect true name dt sigStatus value =
      create_vss_signal name value dt (.num 1) := by
    simp [transformDirect, hst]
  have hval : ∀ q : ℚ, value = .num q →
      cleanFloat dt value = value := by
    intro q hq
    subst hq
    have hcond : ¬ ((dt = ValueType.FLOAT ∨ dt = ValueType.DOUBLE) ∧
        |q| < 1 / 1000000) := by
      rintro ⟨hfd, hlt⟩
      exact absurd hlt (not_lt.mpr (hclean q rfl hfd))
    simp only [cleanFloat]
    rw [if_neg hcond]
  cases value with
  | nil =>
      right
      rw [h1]
      refine ⟨rfl, ?_⟩
      show extractQuality (vssStatusOf .nil (.num 1)) = .INVALID
      rw [show vssStatusOf .nil (.num 1) = .num 2 by
        simp [vssStatusOf, LuaVal.orDefault]]
      exact extractQuality_two
  | num q =>
      left
      rw [h1]
      constructor
      · show cleanFloat dt (.num q) = .num q
        exact hval q rfl
      · show extractQuality (vssStatusOf (.num q) (.num 1)) = .VALID
        rw [vssStatusOf_not_nil _ (by simp)]
        exact extractQuality_one
  | str s =>
      left
      rw [h1]
      refine ⟨rfl, ?_⟩
      show extractQuality (vssStatusOf (.str s) (.num 1)) = .VALID
      rw [vssStatusOf_not_nil _ (by simp)]
      exact extractQuality_one
  | boolean b =>
      left
      rw [h1]
      refine ⟨rfl, ?_⟩
      show extractQuality (vssStatusOf (.boolean b) (.num 1)) = .VALID
      rw [vssStatusOf_not_nil _ (by simp)]
      exact extractQuality_one

/-- Witness for C10's amended theorem: a VALID input of value 25 passes
through the Direct transform unchanged with quality VALID. -/
theorem direct_input_identity_witness :
    ((LuaVal.num 1).orDefault (.num 1) = .num 1 ∧
        (∀ q : ℚ, LuaVal.num 25 = .num q →
          (ValueType.DOUBLE = .FLOAT ∨ ValueType.DOUBLE = .DOUBLE) →
          1 / 1000000 ≤ |q|)) ∧
      ((transformDirect true "Speed" .DOUBLE (.num 1) (.num 25)).value =
            .num 25 ∧
          extractQuality (transformDirect true "Speed" .DOUBLE (.num 1)
            (.num 25)).status = .VALID ∨
        LuaVal.num 25 = .nil ∧
          extractQuality (transformDirect true "Speed" .DOUBLE (.num 1)
            (.num 25)).status = .INVALID) :=
  ⟨⟨by decide, by intro q hq _; cases hq; norm_num⟩,
    direct_input_identity "Speed" .DOUBLE (.num 1) (.num 25) (by decide)
      (by intro q hq _; cases hq; norm_num)⟩

/-! ## Dependency graph: dirty-bit propagation (C9)

From `src/src/signal_dag.cpp` (`SignalDAG::propagate_update_flag`) and
`src/include/vssdag/signal_dag.h` (`SignalDAG::mark_can_signal_updated`).
The dirty bits (`has_new_data`) of the `n` nodes are modelled as a
`Finset (Fin n)`. -/

/-- The dependents lists of the DAG nodes (`SignalNode::dependents`). -/
structure DepGraph (n : Nat) where
  dependents : Fin n → List (Fin n)

/-- The dependency edge relation: `v` is a dependent of `u`. -/
def Edge {n : Nat} (g : DepGraph n) (u v : Fin n) : Prop :=
  v ∈ g.dependents u

/-- Embedding of `SignalDAG::propagate_update_flag`: for each dependent whose dirty bit
is not yet set, set it and recurse from that dependent.  The C++ recursion
is bounded by the finite node count; here the same recursion carries a
fuel argument, and the theorems below only use fuel at least the number of
non-dirty nodes, which the recursion never exhausts. -/
def propagate_update_flag {n : Nat} (g : DepGraph n) :
    Nat → Finset (Fin n) → Fin n → Finset (Fin n)
  | 0, dirty, _ => dirty
  | fuel + 1, dirty, node =>
      (g.dependents node).foldl
        (fun acc d =>
          if d ∈ acc then acc
          else propagate_update_flag g fuel (insert d acc) d)
        dirty

/-- Embedding of `SignalDAG::mark_can_signal_updated`: set the node's `has_new_data`
and propagate through the dependents.  Fuel is the node count. -/
def mark_can_signal_updated {n : Nat} (g : DepGraph n) (dirty : Finset (Fin n))
    (node : Fin n) : Finset (Fin n) :=
  propagate_update_flag g n (insert node dirty) node

/-- The loop body of `propagate_update_flag` over one dependent. -/
def propagateStep {n : Nat} (g : DepGraph n) (fuel : Nat)
    (acc : Finset (Fin n)) (d : Fin n) : Finset (Fin n) :=
  if d ∈ acc then acc else propagate_update_flag g fuel (insert d acc) d

theorem propagate_update_flag_succ {n : Nat} (g : DepGraph n) (fuel : Nat)
    (dirty : Finset (Fin n)) (node : Fin n) :
    propagate_update_flag g (fuel + 1) dirty node =
      (g.dependents node).foldl (propagateStep g fuel) dirty := rfl

/-- One iteration layer of the propagation: given the specification of the
recursion at the smaller fuel, the fold over a dependents list grows the
accumulator, covers the list, and keeps the dependents of every newly
marked node marked. -/
theorem propagateFold_spec {n : Nat} (g : DepGraph n) (fuel : Nat)
    (dirty : Finset (Fin n))
    (ih : ∀ (dirty' : Finset (Fin n)) (node : Fin n),
      (Finset.univ \ dirty').card ≤ fuel →
      dirty' ⊆ propagate_update_flag g fuel dirty' node ∧
        (∀ d ∈ g.dependents node, d ∈ propagate_update_flag g fuel dirty' node) ∧
        (∀ u ∈ propagate_update_flag g fuel dirty' node, u ∉ dirty' →
          ∀ d ∈ g.dependents u, d ∈ propagate_update_flag g fuel dirty' node))
    (hcard : (Finset.univ \ dirty).card ≤ fuel + 1) :
    ∀ (ds : List (Fin n)) (acc : Finset (Fin n)),
      dirty ⊆ acc →
      (∀ u ∈ acc, u ∉ dirty → ∀ d ∈ g.dependents u, d ∈ acc) →
      acc ⊆ ds.foldl (propagateStep g fuel) acc ∧
        (∀ d ∈ ds, d ∈ ds.foldl (propagateStep g fuel) acc) ∧
        (∀ u ∈ ds.foldl (propagateStep g fuel) acc, u ∉ dirty →
          ∀ d ∈ g.dependents u, d ∈ ds.foldl (propagateStep g fuel) acc) := by
  intro ds
  induction ds with
  | nil =>
      intro acc hsub hclo
      rw [List.foldl_nil]
      exact ⟨Finset.Subset.refl _, fun d hd => absurd hd (List.not_mem_nil d), hclo⟩
  | cons d ds ihds =>
      intro acc hsub hclo
      rw [List.foldl_cons]
      by_cases hmem : d ∈ acc
      · have hstep : propagateStep g fuel acc d = acc := if_pos hmem
        rw [hstep]
        obtain ⟨h1, h2, h3⟩ := ihds acc hsub hclo
        refine ⟨h1, ?_, h3⟩
        intro e he
        rcases List.mem_cons.mp he with h | h
        · exact h ▸ h1 hmem
        · exact h2 e h
      · have hstep : propagateStep g fuel acc d =
            propagate_update_flag g fuel (insert d acc) d := if_neg hmem
        rw [hstep]
        have hcard' : (Finset.univ \ insert d acc).card ≤ fuel := by
          have hdu : d ∈ Finset.univ \ acc :=
            Finset.mem_sdiff.mpr ⟨Finset.mem_univ d, hmem⟩
          have heq : Finset.univ \ insert d acc = (Finset.univ \ acc).erase d := by
            ext x
            simp only [Finset.mem_sdiff, Finset.mem_insert, Finset.mem_erase,
              Finset.mem_univ, true_and]
            tauto
          have hle : (Finset.univ \ acc).card ≤ (Finset.univ \ dirty).card :=
            Finset.card_le_card
              (Finset.sdiff_subset_sdiff (Finset.Subset.refl _) hsub)
          rw [heq, Finset.card_erase_of_mem hdu]
          omega
        obtain ⟨p1, p2, p3⟩ := ih (insert d acc) d hcard'
        have haccR : acc ⊆ propagate_update_flag g fuel (insert d acc) d :=
          fun x hx => p1 (Finset.mem_insert_of_mem hx)
        have hdR : d ∈ propagate_update_flag g fuel (insert d acc) d :=
          p1 (Finset.mem_insert_self d acc)
        have hcloR : ∀ u ∈ propagate_update_flag g fuel (insert d acc) d,
            u ∉ dirty → ∀ e ∈ g.dependents u,
              e ∈ propagate_update_flag g fuel (insert d acc) d := by
          intro u huR hud e he
          by_cases hins : u ∈ insert d acc
          · rcases Finset.mem_insert.mp hins with h | h
            · subst h
              exact p2 e he
            · exact haccR (hclo u h hud e he)
          · exact p3 u huR hins e he
        obtain ⟨h1, h2, h3⟩ := ihds (propagate_update_flag g fuel (insert d acc) d)
          (hsub.trans haccR) hcloR
        refine ⟨haccR.trans h1, ?_, h3⟩
        intro e he
        rcases List.mem_cons.mp he with h | h
        · exact h ▸ h1 hdR
        · exact h2 e h

/-- Propagation specification: with fuel at least the number of non-dirty
nodes, `propagate_update_flag` only grows the dirty set, covers the
dependents of the start node, and every node it newly marked has its own
dependents marked as well. -/
theorem propagate_update_flag_spec {n : Nat} (g : DepGraph n) :
    ∀ (fuel : Nat) (dirty : Finset (Fin n)) (node : Fin n),
      (Finset.univ \ dirty).card ≤ fuel →
      dirty ⊆ propagate_update_flag g fuel dirty node ∧
        (∀ d ∈ g.dependents node, d ∈ propagate_update_flag g fuel dirty node) ∧
        (∀ u ∈ propagate_update_flag g fuel dirty node, u ∉ dirty →
          ∀ d ∈ g.dependents u, d ∈ propagate_update_flag g fuel dirty node) := by
  intro fuel
  induction fuel with
  | zero =>
      intro dirty node hcard
      have huniv : dirty = Finset.univ := by
        have h0 : (Finset.univ \ dirty).card = 0 := Nat.le_zero.mp hcard
        have hsub : Finset.univ ⊆ dirty := by
          intro x _
          by_contra hx
          have hmem : x ∈ Finset.univ \ dirty :=
            Finset.mem_sdiff.mpr ⟨Finset.mem_univ x, hx⟩
          rw [Finset.card_eq_zero.mp h0] at hmem
          exact absurd hmem (Finset.not_mem_empty x)
        exact Finset.Subset.antisymm (fun x _ => Finset.mem_univ x) hsub
      refine ⟨Finset.Subset.refl _, ?_, ?_⟩
      · intro d _
        show d ∈ propagate_update_flag g 0 dirty node
        rw [propagate_update_flag, huniv]
        exact Finset.mem_univ d
      · intro u _ hu
        exfalso
        rw [huniv] at hu
        exact hu (Finset.mem_univ u)
  | succ fuel ih =>
      intro dirty node hcard
      rw [propagate_update_flag_succ]
      exact propagateFold_spec g fuel dirty ih hcard (g.dependents node) dirty
        (Finset.Subset.refl _) (fun u hu hnu => absurd hu hnu)

/-- When every dependent of the start node is already marked, propagation
is a no-op (the recursion stops immediately at already-dirty nodes). -/
theorem propagate_update_flag_fixed {n : Nat} (g : DepGraph n) (fuel : Nat)
    (acc : Finset (Fin n)) (node : Fin n)
    (h : ∀ d ∈ g.dependents node, d ∈ acc) :
    propagate_update_flag g fuel acc node = acc := by
  cases fuel with
  | zero => rfl
  | succ fuel =>
      rw [propagate_update_flag_succ]
      have hgen : ∀ (ds : List (Fin n)), (∀ d ∈ ds, d ∈ acc) →
          ds.foldl (propagateStep g fuel) acc = acc := by
        intro ds
        induction ds with
        | nil => intro _; rw [List.foldl_nil]
        | cons d ds ihds =>
            intro hds
            rw [List.foldl_cons,
              show propagateStep g fuel acc d = acc from
                if_pos (hds d (List.mem_cons_self d ds))]
            exact ihds (fun e he => hds e (List.mem_cons_of_mem d he))
      exact hgen (g.dependents node) h

/-- Claim C9.  From any state whose dirty set is closed under dependents
(each already-dirty node's dependents, hence transitive dependents, are
dirty), `mark_can_signal_updated` marks the node and all of its transitive
dependents, and invoking it again from the resulting state changes no
dirty bit.  Termination of the C++ recursion is reflected by the fuel
bound `n` (the node count) sufficing in every reachable state. -/
theorem mark_dirty_marks_and_idempotent {n : Nat} (g : DepGraph n)
    (dirty : Finset (Fin n)) (node : Fin n)
    (hclosed : ∀ u ∈ dirty, ∀ d ∈ g.dependents u, d ∈ dirty) :
    (∀ v, Relation.ReflTransGen (Edge g) node v →
        v ∈ mark_can_signal_updated g dirty node) ∧
      mark_can_signal_updated g (mark_can_signal_updated g dirty node) node =
        mark_can_signal_updated g dirty node := by
  have hcard : (Finset.univ \ insert node dirty).card ≤ n := by
    calc (Finset.univ \ insert node dirty).card
        ≤ Finset.univ.card := Finset.card_le_card Finset.sdiff_subset
      _ = n := by simp
  obtain ⟨p1, p2, p3⟩ := propagate_update_flag_spec g n (insert node dirty) node hcard
  have hnodeR : node ∈ mark_can_signal_updated g dirty node :=
    p1 (Finset.mem_insert_self node dirty)
  have hcloR : ∀ u ∈ mark_can_signal_updated g dirty node,
      ∀ d ∈ g.dependents u, d ∈ mark_can_signal_updated g dirty node := by
    intro u hu d hd
    by_cases hins : u ∈ insert node dirty
    · rcases Finset.mem_insert.mp hins with h | h
      · subst h
        exact p2 d hd
      · exact p1 (Finset.mem_insert_of_mem (hclosed u h d hd))
    · exact p3 u hu hins d hd
  constructor
  · intro v hv
    induction hv with
    | refl => exact hnodeR
    | tail hab hbc ihv => exact hcloR _ ihv _ hbc
  · show propagate_update_flag g n
        (insert node (mark_can_signal_updated g dirty node)) node =
      mark_can_signal_updated g dirty node
    rw [Finset.insert_eq_self.mpr hnodeR]
    exact propagate_update_flag_fixed g n _ node (hcloR node hnodeR)

/-- A three-node chain used as the concrete witness graph. -/
def chainGraph : DepGraph 3 :=
  ⟨fun i => if i = 0 then [1] else if i = 1 then [2] else []⟩

/-- Witness for C9: marking node 0 of the chain from a clean state marks
all reachable nodes, and marking again changes nothing. -/
theorem mark_dirty_marks_and_idempotent_witness :
    (∀ u ∈ (∅ : Finset (Fin 3)), ∀ d ∈ chainGraph.dependents u,
        d ∈ (∅ : Finset (Fin 3))) ∧
      ((∀ v, Relation.ReflTransGen (Edge chainGraph) 0 v →
          v ∈ mark_can_signal_updated chainGraph ∅ 0) ∧
        mark_can_signal_updated chainGraph (mark_can_signal_updated chainGraph ∅ 0) 0 =
          mark_can_signal_updated chainGraph ∅ 0) :=
  ⟨by decide, mark_dirty_marks_and_idempotent chainGraph ∅ 0 (by decide)⟩

/-! ## Dependency graph: build and topological sort (C6)

From `src/src/signal_dag.cpp` (`SignalDAG::build` pass 2 and
`SignalDAG::topological_sort`).  Build's second pass appends each
dependent to its provider's `dependents` list and increments the
dependent's `in_degree` once per edge, so a node's in-degree equals the
total multiplicity of its occurrences across all dependents lists. -/

/-- A node's `in_degree` as established by `SignalDAG::build` pass 2. -/
def inDegree {n : Nat} (g : DepGraph n) (v : Fin n) : Nat :=
  ∑ u : Fin n, (g.dependents u).count v

/-- The number of in-edges of `v` accounted for by the already-output
prefix `order` of the topological sort (each popped node's dependents list
is processed exactly once). -/
def sumCountN {n : Nat} (g : DepGraph n) (order : List (Fin n)) (v : Fin n) : Nat :=
  (order.map (fun u => (g.dependents u).count v)).sum

/-- One edge-processing step of the Kahn loop
(`in_degrees[dependent]--; if (in_degrees[dependent] == 0) queue.push`):
the remaining-degree map is over `Int`, as the C++ uses `int` counters. -/
def kahnEdge {n : Nat} (g : DepGraph n) (p : (Fin n → Int) × List (Fin n))
    (d : Fin n) : (Fin n → Int) × List (Fin n) :=
  let deg' := Function.update p.1 d (p.1 d - 1)
  if deg' d = 0 then (deg', p.2 ++ [d]) else (deg', p.2)

/-- The `while (!queue.empty())` loop of `SignalDAG::topological_sort`:
pop the front node, append it to the processing order, and process its
dependents.  Each iteration appends exactly one node, so the node count
`n` supplied by `topological_sort` below is enough fuel (the success
properties proved below hold for every run). -/
def kahnLoop {n : Nat} (g : DepGraph n) :
    Nat → List (Fin n) → List (Fin n) → (Fin n → Int) → List (Fin n)
  | 0, order, _, _ => order
  | fuel + 1, order, queue, deg =>
      match queue with
      | [] => order
      | q :: rest =>
          let s := (g.dependents q).foldl (kahnEdge g) (deg, rest)
          kahnLoop g fuel (order ++ [q]) s.2 s.1

/-- The working copy of the in-degrees taken at the start of the sort. -/
def kahnDeg0 {n : Nat} (g : DepGraph n) : Fin n → Int :=
  fun v => (inDegree g v : Int)

/-- The initial queue: the zero-in-degree nodes in insertion order. -/
def kahnQueue0 {n : Nat} (g : DepGraph n) : List (Fin n) :=
  (List.finRange n).filter (fun v => decide (kahnDeg0 g v = 0))

/-- Embedding of `SignalDAG::topological_sort`: seed the queue with the zero-in-degree
nodes in insertion order, run the loop, and succeed iff the resulting
order covers every node (`processing_order_.size() == nodes_.size()`);
otherwise the build fails with "cycle detected". -/
def topological_sort {n : Nat} (g : DepGraph n) : Option (List (Fin n)) :=
  let order := kahnLoop g n [] (kahnQueue0 g) (kahnDeg0 g)
  if order.length = n then some order else none

theorem sumCountN_append {n : Nat} (g : DepGraph n) (l₁ l₂ : List (Fin n))
    (v : Fin n) :
    sumCountN g (l₁ ++ l₂) v = sumCountN g l₁ v + sumCountN g l₂ v := by
  simp [sumCountN]

theorem sumCountN_singleton {n : Nat} (g : DepGraph n) (q v : Fin n) :
    sumCountN g [q] v = (g.dependents q).count v := by
  simp [sumCountN]

theorem sumCountN_le_inDegree {n : Nat} (g : DepGraph n) (l : List (Fin n))
    (hl : l.Nodup) (v : Fin n) : sumCountN g l v ≤ inDegree g v := by
  have h : sumCountN g l v = ∑ u in l.toFinset, (g.dependents u).count v := by
    rw [sumCountN, List.sum_toFinset _ hl]
  rw [h, inDegree]
  exact Finset.sum_le_sum_of_subset_of_nonneg (Finset.subset_univ _)
    (fun _ _ _ => Nat.zero_le _)

/-- When the prefix fully accounts for `v`'s in-degree, every in-neighbour
of `v` is already in the prefix. -/
theorem mem_of_sumCountN_eq {n : Nat} (g : DepGraph n) (l : List (Fin n))
    (hl : l.Nodup) (v : Fin n) (h : sumCountN g l v = inDegree g v) :
    ∀ u : Fin n, v ∈ g.dependents u → u ∈ l := by
  intro u hu
  by_contra hnot
  have h1 : sumCountN g l v = ∑ x in l.toFinset, (g.dependents x).count v := by
    rw [sumCountN, List.sum_toFinset _ hl]
  have hsplit : ∑ x in Finset.univ \ l.toFinset, (g.dependents x).count v +
      ∑ x in l.toFinset, (g.dependents x).count v = inDegree g v := by
    rw [inDegree]
    exact Finset.sum_sdiff (Finset.subset_univ _)
  have hzero : ∑ x in Finset.univ \ l.toFinset, (g.dependents x).count v = 0 := by
    omega
  have humem : u ∈ Finset.univ \ l.toFinset :=
    Finset.mem_sdiff.mpr ⟨Finset.mem_univ u, fun hc => hnot (List.mem_toFinset.mp hc)⟩
  have hcnt : (g.dependents u).count v = 0 :=
    (Finset.sum_eq_zero_iff.mp hzero) u humem
  exact absurd hu (List.count_eq_zero.mp hcnt)

/-- The degree component of the edge fold: each occurrence of `v` among
the processed dependents decrements `v`'s remaining degree by one. -/
theorem kahnFold_deg {n : Nat} (g : DepGraph n) (ds : List (Fin n)) :
    ∀ (deg : Fin n → Int) (queue : List (Fin n)) (v : Fin n),
      (ds.foldl (kahnEdge g) (deg, queue)).1 v = deg v - (ds.count v : Int) := by
  induction ds with
  | nil => intro deg queue v; simp
  | cons d ds ihds =>
      intro deg queue v
      rw [List.foldl_cons]
      have hfst : ∀ p : (Fin n → Int) × List (Fin n), ∀ e,
          (kahnEdge g p e).1 = Function.update p.1 e (p.1 e - 1) := by
        intro p e
        show (if Function.update p.1 e (p.1 e - 1) e = 0
            then (Function.update p.1 e (p.1 e - 1), p.2 ++ [e])
            else (Function.update p.1 e (p.1 e - 1), p.2)).1 =
          Function.update p.1 e (p.1 e - 1)
        split <;> rfl
      rcases hq : kahnEdge g (deg, queue) d with ⟨deg₁, queue₁⟩
      have hdeg₁ : deg₁ = Function.update deg d (deg d - 1) := by
        rw [← hfst (deg, queue) d, hq]
      have hc : (d :: ds).count v = ds.count v + (if v = d then 1 else 0) := by
        rw [List.count_cons]
        by_cases hvd : v = d
        · simp [hvd]
        · simp [hvd, Ne.symm hvd]
      rw [ihds deg₁ queue₁ v, hdeg₁, Function.update_apply, hc]
      by_cases hvd : v = d
      · rw [if_pos hvd, if_pos hvd, hvd]
        push_cast
        omega
      · rw [if_neg hvd, if_neg hvd]
        push_cast
        omega

/-- The queue component of the edge fold: the original queue keeps its
order, and every newly pushed node `d` had remaining degree between 1 and
its occurrence count among the processed dependents (its counter crossed
zero exactly once, so it is pushed at most once). -/
theorem kahnFold_queue {n : Nat} (g : DepGraph n) (ds : List (Fin n)) :
    ∀ (deg : Fin n → Int) (queue : List (Fin n)),
      ∃ pushed : List (Fin n),
        (ds.foldl (kahnEdge g) (deg, queue)).2 = queue ++ pushed ∧
          pushed.Nodup ∧
          ∀ d ∈ pushed, 1 ≤ deg d ∧ deg d ≤ (ds.count d : Int) := by
  induction ds with
  | nil =>
      intro deg queue
      exact ⟨[], by simp, List.nodup_nil, fun d hd => absurd hd (List.not_mem_nil d)⟩
  | cons d ds ihds =>
      intro deg queue
      rw [List.foldl_cons]
      have hupd : Function.update deg d (deg d - 1) d = deg d - 1 := by
        simp
      have hcnt : ∀ e, ds.count e ≤ (d :: ds).count e := by
        intro e
        rw [List.count_cons]
        exact Nat.le_add_right _ _
      have hceq : (d :: ds).count d = ds.count d + 1 := by
        rw [List.count_cons]
        simp
      by_cases hz : Function.update deg d (deg d - 1) d = 0
      · have hstep : kahnEdge g (deg, queue) d =
            (Function.update deg d (deg d - 1), queue ++ [d]) := by
          show (if Function.update deg d (deg d - 1) d = 0
              then (Function.update deg d (deg d - 1), queue ++ [d])
              else (Function.update deg d (deg d - 1), queue)) = _
          rw [if_pos hz]
        rw [hstep]
        obtain ⟨p, hp, hpnodup, hprops⟩ :=
          ihds (Function.update deg d (deg d - 1)) (queue ++ [d])
        have hdegd : deg d = 1 := by
          rw [hupd] at hz
          omega
        have hdnotp : d ∉ p := by
          intro hdp
          have h1 := (hprops d hdp).1
          rw [hupd] at h1
          omega
        refine ⟨d :: p, by rw [hp]; simp, List.nodup_cons.mpr ⟨hdnotp, hpnodup⟩, ?_⟩
        intro e he
        rcases List.mem_cons.mp he with h | h
        · refine ⟨by rw [h]; omega, ?_⟩
          rw [h]
          have hpos : 0 < (d :: ds).count d :=
            List.count_pos_iff.mpr (List.mem_cons_self d ds)
          omega
        · have hed : e ≠ d := fun hc => hdnotp (hc ▸ h)
          have h2 := hprops e h
          rw [Function.update_apply, if_neg hed] at h2
          exact ⟨h2.1, le_trans h2.2 (by exact_mod_cast hcnt e)⟩
      · have hstep : kahnEdge g (deg, queue) d =
            (Function.update deg d (deg d - 1), queue) := by
          show (if Function.update deg d (deg d - 1) d = 0
              then (Function.update deg d (deg d - 1), queue ++ [d])
              else (Function.update deg d (deg d - 1), queue)) = _
          rw [if_neg hz]
        rw [hstep]
        obtain ⟨p, hp, hpnodup, hprops⟩ :=
          ihds (Function.update deg d (deg d - 1)) queue
        refine ⟨p, hp, hpnodup, ?_⟩
        intro e he
        have h2 := hprops e he
        by_cases hed : e = d
        · rw [hed] at h2 ⊢
          rw [hupd] at h2
          have h4 : (ds.count d : Int) + 1 = ((d :: ds).count d : Int) := by
            exact_mod_cast congrArg (Nat.cast (R := Int)) hceq.symm
          exact ⟨by omega, by omega⟩
        · rw [Function.update_apply, if_neg hed] at h2
          exact ⟨h2.1, le_trans h2.2 (by exact_mod_cast hcnt e)⟩

/-- The loop invariant of the Kahn sort: the emitted order and the queue
never repeat a node; the degree map accounts exactly for the edges out of
already-emitted nodes; queued nodes have remaining degree zero; emitted
nodes have non-positive remaining degree; and the emitted order is
topological (every in-neighbour of an emitted node was emitted before
it). -/
def KahnInv {n : Nat} (g : DepGraph n) (order queue : List (Fin n))
    (deg : Fin n → Int) : Prop :=
  (order ++ queue).Nodup ∧
    (∀ v, deg v = (inDegree g v : Int) - (sumCountN g order v : Int)) ∧
    (∀ v ∈ queue, deg v = 0) ∧
    (∀ v ∈ order, deg v ≤ 0) ∧
    (∀ u v : Fin n, Edge g u v → v ∈ order →
      u ∈ order ∧ order.indexOf u < order.indexOf v)

/-- One iteration of the Kahn loop preserves the invariant. -/
theorem kahnStep_inv {n : Nat} (g : DepGraph n) (order rest : List (Fin n))
    (q : Fin n) (deg : Fin n → Int)
    (hinv : KahnInv g order (q :: rest) deg) :
    KahnInv g (order ++ [q])
      ((g.dependents q).foldl (kahnEdge g) (deg, rest)).2
      ((g.dependents q).foldl (kahnEdge g) (deg, rest)).1 := by
  obtain ⟨hN, hD, hQ0, hO, hB⟩ := hinv
  have hNreassoc : ((order ++ [q]) ++ rest).Nodup := by
    have h : order ++ q :: rest = (order ++ [q]) ++ rest := by simp
    rwa [h] at hN
  obtain ⟨hordnodup, hqrestnodup, hdisj⟩ := List.nodup_append.mp hN
  obtain ⟨hoq_nodup, hrest_nodup, hdisj2⟩ := List.nodup_append.mp hNreassoc
  have hqnot : q ∉ order := fun hc => hdisj hc (List.mem_cons_self q rest)
  have hdegq : deg q = 0 := hQ0 q (List.mem_cons_self q rest)
  have hfd : ∀ v, ((g.dependents q).foldl (kahnEdge g) (deg, rest)).1 v =
      deg v - ((g.dependents q).count v : Int) :=
    fun v => kahnFold_deg g (g.dependents q) deg rest v
  obtain ⟨p, hp2, hpnodup, hpprops⟩ := kahnFold_queue g (g.dependents q) deg rest
  -- exact accounting: a node with remaining degree zero has all of its
  -- in-neighbours already emitted
  have haccount : ∀ v, deg v = 0 → ∀ u, v ∈ g.dependents u → u ∈ order := by
    intro v hv u hu
    have hDv := hD v
    have hle : sumCountN g order v ≤ inDegree g v :=
      sumCountN_le_inDegree g order hordnodup v
    have heq : sumCountN g order v = inDegree g v := by omega
    exact mem_of_sumCountN_eq g order hordnodup v heq u hu
  have hrest0 : ∀ v ∈ rest, (g.dependents q).count v = 0 := by
    intro v hv
    by_contra hc
    have hvds : v ∈ g.dependents q :=
      List.count_pos_iff.mp (Nat.pos_of_ne_zero hc)
    exact hqnot (haccount v (hQ0 v (List.mem_cons_of_mem q hv)) q hvds)
  have hqinn : ∀ u, q ∈ g.dependents u → u ∈ order := haccount q hdegq
  have hpfresh : ∀ d ∈ p, d ∉ order ∧ d ≠ q ∧ d ∉ rest := by
    intro d hd
    have h1 := (hpprops d hd).1
    refine ⟨fun hc => ?_, fun hc => ?_, fun hc => ?_⟩
    · have := hO d hc
      omega
    · rw [hc] at h1
      omega
    · have := hQ0 d (List.mem_cons_of_mem q hc)
      omega
  have hD' : ∀ v, ((g.dependents q).foldl (kahnEdge g) (deg, rest)).1 v =
      (inDegree g v : Int) - (sumCountN g (order ++ [q]) v : Int) := by
    intro v
    rw [hfd v, hD v, sumCountN_append, sumCountN_singleton]
    push_cast
    omega
  have hp0 : ∀ d ∈ p, ((g.dependents q).foldl (kahnEdge g) (deg, rest)).1 d = 0 := by
    intro d hd
    have h1 := (hpprops d hd).2
    have h2 := hfd d
    have h3 := hD' d
    have h4 : sumCountN g (order ++ [q]) d ≤ inDegree g d :=
      sumCountN_le_inDegree g _ hoq_nodup d
    omega
  refine ⟨?_, hD', ?_, ?_, ?_⟩
  · -- nodup of the new order and queue
    rw [hp2]
    have hdisj_rp : rest.Disjoint p := fun a ha hb => (hpfresh a hb).2.2 ha
    have hdisj_big : (order ++ [q]).Disjoint (rest ++ p) := by
      intro a ha hb
      rcases List.mem_append.mp hb with h | h
      · exact hdisj2 ha h
      · rcases List.mem_append.mp ha with h2 | h2
        · exact (hpfresh a h).1 h2
        · have : a = q := by simpa using h2
          exact (hpfresh a h).2.1 this
    exact List.nodup_append.mpr ⟨hoq_nodup,
      List.nodup_append.mpr ⟨hrest_nodup, hpnodup, hdisj_rp⟩, hdisj_big⟩
  · -- queued nodes have remaining degree zero
    intro v hv
    rw [hp2] at hv
    rcases List.mem_append.mp hv with h | h
    · rw [hfd v, hrest0 v h]
      have := hQ0 v (List.mem_cons_of_mem q h)
      push_cast
      omega
    · exact hp0 v h
  · -- emitted nodes have non-positive remaining degree
    intro v hv
    rw [hfd v]
    have hc : (0 : Int) ≤ ((g.dependents q).count v : Int) := Int.natCast_nonneg _
    rcases List.mem_append.mp hv with h | h
    · have := hO v h
      omega
    · have hvq : v = q := by simpa using h
      rw [hvq, hdegq]
      omega
  · -- the order stays topological
    intro u v he hv
    rcases List.mem_append.mp hv with h | h
    · obtain ⟨hu, hlt⟩ := hB u v he h
      refine ⟨List.mem_append_left _ hu, ?_⟩
      rw [List.indexOf_append_of_mem hu, List.indexOf_append_of_mem h]
      exact hlt
    · have hvq : v = q := by simpa using h
      subst hvq
      have hu : u ∈ order := hqinn u he
      refine ⟨List.mem_append_left _ hu, ?_⟩
      rw [List.indexOf_append_of_mem hu, List.indexOf_append_of_not_mem hqnot]
      have hidx : List.indexOf v [v] = 0 := List.indexOf_cons_self v []
      rw [hidx]
      have := List.indexOf_lt_length.mpr hu
      omega

theorem kahnLoop_zero {n : Nat} (g : DepGraph n) (order queue : List (Fin n))
    (deg : Fin n → Int) : kahnLoop g 0 order queue deg = order := rfl

theorem kahnLoop_nil {n : Nat} (g : DepGraph n) (fuel : Nat)
    (order : List (Fin n)) (deg : Fin n → Int) :
    kahnLoop g (fuel + 1) order [] deg = order := rfl

theorem kahnLoop_cons {n : Nat} (g : DepGraph n) (fuel : Nat)
    (order rest : List (Fin n)) (q : Fin n) (deg : Fin n → Int) :
    kahnLoop g (fuel + 1) order (q :: rest) deg =
      kahnLoop g fuel (order ++ [q])
        ((g.dependents q).foldl (kahnEdge g) (deg, rest)).2
        ((g.dependents q).foldl (kahnEdge g) (deg, rest)).1 := rfl

/-- Any run of the Kahn loop from an invariant state yields a
duplicate-free order in which every in-neighbour of an emitted node
precedes it. -/
theorem kahnLoop_spec {n : Nat} (g : DepGraph n) :
    ∀ (fuel : Nat) (order queue : List (Fin n)) (deg : Fin n → Int),
      KahnInv g order queue deg →
      (kahnLoop g fuel order queue deg).Nodup ∧
        (∀ u v : Fin n, Edge g u v → v ∈ kahnLoop g fuel order queue deg →
          u ∈ kahnLoop g fuel order queue deg ∧
            (kahnLoop g fuel order queue deg).indexOf u <
              (kahnLoop g fuel order queue deg).indexOf v) := by
  intro fuel
  induction fuel with
  | zero =>
      intro order queue deg hinv
      obtain ⟨hN, _, _, _, hB⟩ := hinv
      rw [kahnLoop_zero]
      exact ⟨(List.nodup_append.mp hN).1, hB⟩
  | succ fuel ih =>
      intro order queue deg hinv
      cases queue with
      | nil =>
          obtain ⟨hN, _, _, _, hB⟩ := hinv
          rw [kahnLoop_nil]
          exact ⟨(List.nodup_append.mp hN).1, hB⟩
      | cons q rest =>
          rw [kahnLoop_cons]
          exact ih (order ++ [q]) _ _ (kahnStep_inv g order rest q deg hinv)

/-- Claim C6.  For every dependency graph on which the build succeeds, the
processing order contains each node exactly once (its length equals the
node count, it has no duplicates, and it is complete), and for every
dependency edge u→v, u precedes v in the order.  If the graph contains a
cycle, `topological_sort` fails (the build reports "cycle detected"). -/
theorem topological_sort_correct {n : Nat} (g : DepGraph n) :
    (∀ order, topological_sort g = some order →
      order.length = n ∧ (∀ v : Fin n, v ∈ order) ∧ order.Nodup ∧
        (∀ u v : Fin n, Edge g u v → order.indexOf u < order.indexOf v)) ∧
      ((∃ v : Fin n, Relation.TransGen (Edge g) v v) →
        topological_sort g = none) := by
  have hinit : KahnInv g [] (kahnQueue0 g) (kahnDeg0 g) := by
    refine ⟨?_, ?_, ?_, ?_, ?_⟩
    · simpa using List.Nodup.filter _ (List.nodup_finRange n)
    · intro v
      simp [kahnDeg0, sumCountN]
    · intro v hv
      have := (List.mem_filter.mp hv).2
      exact of_decide_eq_true this
    · intro v hv
      exact absurd hv (List.not_mem_nil v)
    · intro u v _ hv
      exact absurd hv (List.not_mem_nil v)
  obtain ⟨hnodup, hspec⟩ := kahnLoop_spec g n [] (kahnQueue0 g) (kahnDeg0 g) hinit
  have hfirst : ∀ order, topological_sort g = some order →
      order.length = n ∧ (∀ v : Fin n, v ∈ order) ∧ order.Nodup ∧
        (∀ u v : Fin n, Edge g u v → order.indexOf u < order.indexOf v) := by
    intro order hsome
    unfold topological_sort at hsome
    by_cases hlen : (kahnLoop g n [] (kahnQueue0 g) (kahnDeg0 g)).length = n
    · rw [if_pos hlen] at hsome
      have horder : kahnLoop g n [] (kahnQueue0 g) (kahnDeg0 g) = order :=
        Option.some.inj hsome
      rw [← horder]
      have hcomplete : ∀ v : Fin n,
          v ∈ kahnLoop g n [] (kahnQueue0 g) (kahnDeg0 g) := by
        intro v
        have hcard : (kahnLoop g n [] (kahnQueue0 g) (kahnDeg0 g)).toFinset.card = n := by
          rw [List.toFinset_card_of_nodup hnodup, hlen]
        have huniv : (kahnLoop g n [] (kahnQueue0 g) (kahnDeg0 g)).toFinset =
            Finset.univ := Finset.eq_univ_of_card _ (by rw [hcard]; simp)
        rw [← List.mem_toFinset, huniv]
        exact Finset.mem_univ v
      refine ⟨hlen, hcomplete, hnodup, ?_⟩
      intro u v he
      exact (hspec u v he (hcomplete v)).2
    · rw [if_neg hlen] at hsome
      exact absurd hsome (Option.noConfusion)
  refine ⟨hfirst, ?_⟩
  rintro ⟨v, hcyc⟩
  cases hts : topological_sort g with
  | none => rfl
  | some order =>
      exfalso
      obtain ⟨_, _, _, hidx⟩ := hfirst order hts
      have hmono : ∀ a b : Fin n, Relation.TransGen (Edge g) a b →
          order.indexOf a < order.indexOf b := by
        intro a b hab
        induction hab with
        | single e => exact hidx _ _ e
        | tail hab e ihab => exact lt_trans ihab (hidx _ _ e)
      exact lt_irrefl _ (hmono v v hcyc)

/-- Witness for C6 on the three-node chain: the build succeeds with order
[0, 1, 2], which is complete, duplicate-free, and edge-respecting. -/
theorem topological_sort_correct_witness :
    topological_sort chainGraph = some [0, 1, 2] ∧
      (([0, 1, 2] : List (Fin 3)).length = 3 ∧
        (∀ v : Fin 3, v ∈ ([0, 1, 2] : List (Fin 3))) ∧
        ([0, 1, 2] : List (Fin 3)).Nodup ∧
        (∀ u v : Fin 3, Edge chainGraph u v →
          ([0, 1, 2] : List (Fin 3)).indexOf u <
            ([0, 1, 2] : List (Fin 3)).indexOf v)) :=
  ⟨by decide, (topological_sort_correct chainGraph).1 [0, 1, 2] (by decide)⟩

/-! ## Evaluator: output throttling across phase 1 and phase 2 (C5)

From `src/src/signal_processor.cpp`, `process_signal_updates`:
the phase-1 emission gate (lines 870–892) and the phase-2 emission path
(lines 916–941).  The per-node throttling state and the two gates are
embedded exactly; which processing events occur for the node is left
free (a trace), which covers every schedule the evaluator can produce. -/

/-- Per-node output state (`SignalNode::last_output`,
`SignalNode::last_output_value`); `none` models
`steady_clock::time_point::min()`. -/
structure OutState where
  last_output : Option Nat
  last_output_value : String
deriving DecidableEq, Repr

/-- Which phase of `process_signal_updates` produced a result for the
node. -/
inductive EvPhase where
  | one
  | two
deriving DecidableEq, Repr

/-- One processing event for the node: the phase, the tick time `now`,
the canonical text of the produced value
(`VSSTypeHelper::to_string(...)`), and whether the produced record's
quality is VALID (`qualified_value.is_valid()`, consulted only by phase
2). -/
structure Ev where
  phase : EvPhase
  now : Nat
  valueStr : String
  valid : Bool
deriving DecidableEq, Repr

/-- The phase-1 gate: first-ever output always emits; otherwise with
`interval_ms > 0` emit iff `now - last_output ≥ interval_ms`; with
`interval_ms == 0` always emit. -/
def phase1ShouldOutput (interval : Nat) (st : OutState) (now : Nat) : Bool :=
  match st.last_output with
  | none => true
  | some t => if 0 < interval then decide (interval ≤ now - t) else true

/-- The phase-2 gate: the result must be VALID, and it emits iff this is
the first-ever output or the canonical text differs from
`last_output_value`.  No interval check appears on this path. -/
def phase2ShouldOutput (st : OutState) (valueStr : String) : Bool :=
  match st.last_output with
  | none => true
  | some _ => decide (st.last_output_value ≠ valueStr)

/-- Processing one event: on emission both phases set
`last_output := now` and `last_output_value` to the canonical text. -/
def stepEv (interval : Nat) (st : OutState) (e : Ev) :
    OutState × Option (Nat × EvPhase) :=
  match e.phase with
  | .one =>
      if phase1ShouldOutput interval st e.now then
        (⟨some e.now, e.valueStr⟩, some (e.now, .one))
      else (st, none)
  | .two =>
      if e.valid && phase2ShouldOutput st e.valueStr then
        (⟨some e.now, e.valueStr⟩, some (e.now, .two))
      else (st, none)

/-- Run a trace of processing events for one node, collecting the emitted
(time, phase) pairs in order. -/
def runEv (interval : Nat) : OutState → List Ev → OutState × List (Nat × EvPhase)
  | st, [] => (st, [])
  | st, e :: es =>
      let r := stepEv interval st e
      let rest := runEv interval r.1 es
      (rest.1, r.2.toList ++ rest.2)

/-- Claim C5, counterexample.  A node with `interval_ms = 1000` emits in
phase 1 at time 0 and again — through the phase-2 path, which never
consults the interval — at the same time 0 (the `delayed` delivery
scenario): two successive emissions separated by 0 ms < 1000 ms, refuting
the claim for phase-2 emissions. -/
theorem phase2_emission_breaks_interval :
    (runEv 1000 ⟨none, ""⟩
        [⟨.one, 0, "0", true⟩, ⟨.two, 0, "1", true⟩]).2 =
      [(0, .one), (0, .two)] ∧ ¬ (1000 ≤ (0 : Nat) - 0) := by
  exact ⟨rfl, by decide⟩

/-- Seed list encoding the time of the last emission before the trace
starts (for the chain statement below). -/
def seedOf (st : OutState) : List (Nat × EvPhase) :=
  match st.last_output with
  | none => []
  | some t => [(t, .two)]

/-- Gap property between consecutive emissions: whenever the later one
came from phase 1, it is at least `interval` after the earlier one. -/
def GapOk (interval : Nat) (a b : Nat × EvPhase) : Prop :=
  b.2 = EvPhase.one → a.1 + interval ≤ b.1

theorem runEv_cons (interval : Nat) (st : OutState) (e : Ev) (es : List Ev) :
    runEv interval st (e :: es) =
      ((runEv interval (stepEv interval st e).1 es).1,
        (stepEv interval st e).2.toList ++
          (runEv interval (stepEv interval st e).1 es).2) := rfl

/-- The gap relation only reads the earlier emission's time, never its
phase. -/
theorem chain'_gapOk_phase_irrel (interval : Nat) (t : Nat) (p p' : EvPhase)
    (l : List (Nat × EvPhase)) (h : List.Chain' (GapOk interval) ((t, p) :: l)) :
    List.Chain' (GapOk interval) ((t, p') :: l) := by
  cases l with
  | nil => simp
  | cons b l =>
      rw [List.chain'_cons] at h ⊢
      exact ⟨fun hb => h.1 hb, h.2⟩

/-- Helper: the chain of emissions produced by any event trace respects
the phase-1 gaps, relative to the recorded previous emission. -/
theorem runEv_chain (interval : Nat) :
    ∀ (events : List Ev) (st : OutState),
      (∀ t, st.last_output = some t → ∀ e ∈ events, t ≤ e.now) →
      List.Pairwise (fun a b : Ev => a.now ≤ b.now) events →
      List.Chain' (GapOk interval)
        (seedOf st ++ (runEv interval st events).2) := by
  intro events
  induction events with
  | nil =>
      intro st _ _
      show List.Chain' (GapOk interval) (seedOf st ++ [])
      rw [List.append_nil]
      cases h : st.last_output with
      | none => simp [seedOf, h]
      | some t => simp [seedOf, h]
  | cons e es ihes =>
      intro st hfut hsorted
      obtain ⟨hhead, htail⟩ := List.pairwise_cons.mp hsorted
      obtain ⟨ph, tnow, vs, vld⟩ := e
      rw [runEv_cons]
      have hihfut : ∀ t, (OutState.mk (some tnow) vs).last_output = some t →
          ∀ e' ∈ es, t ≤ e'.now := by
        intro t ht e' he'
        have h3 : tnow = t := by simpa using ht
        exact h3 ▸ hhead e' he'
      have hemitted : ∀ p : EvPhase,
          List.Chain' (GapOk interval)
            ([(tnow, p)] ++ (runEv interval ⟨some tnow, vs⟩ es).2) := by
        intro p
        have h := ihes ⟨some tnow, vs⟩ hihfut htail
        have h2 : List.Chain' (GapOk interval)
            ((tnow, EvPhase.two) :: (runEv interval ⟨some tnow, vs⟩ es).2) := by
          simpa [seedOf] using h
        exact chain'_gapOk_phase_irrel interval tnow _ p _ h2
      cases ph with
      | one =>
          by_cases hg : phase1ShouldOutput interval st tnow
          · have hstep : stepEv interval st ⟨.one, tnow, vs, vld⟩ =
                (⟨some tnow, vs⟩, some (tnow, .one)) := by
              unfold stepEv
              simp [hg]
            rw [hstep]
            cases hlast : st.last_output with
            | none =>
                have := hemitted .one
                simpa [seedOf, hlast] using this
            | some t0 =>
                have ht0 : t0 ≤ tnow :=
                  hfut t0 hlast _ (List.mem_cons_self _ _)
                have hgap : t0 + interval ≤ tnow := by
                  unfold phase1ShouldOutput at hg
                  rw [hlast] at hg
                  have hg2 : (if 0 < interval then decide (interval ≤ tnow - t0)
                      else true) = true := hg
                  by_cases hi : 0 < interval
                  · rw [if_pos hi] at hg2
                    have := of_decide_eq_true hg2
                    omega
                  · omega
                show List.Chain' (GapOk interval)
                  (seedOf st ++ ((tnow, EvPhase.one) ::
                    (runEv interval ⟨some tnow, vs⟩ es).2))
                rw [show seedOf st = [(t0, EvPhase.two)] by simp [seedOf, hlast]]
                rw [List.singleton_append, List.chain'_cons]
                exact ⟨fun _ => hgap, by simpa using hemitted .one⟩
          · have hstep : stepEv interval st ⟨.one, tnow, vs, vld⟩ = (st, none) := by
              unfold stepEv
              simp [hg]
            rw [hstep]
            show List.Chain' (GapOk interval)
              (seedOf st ++ ([] ++ (runEv interval st es).2))
            rw [List.nil_append]
            exact ihes st
              (fun t ht e' he' => hfut t ht e' (List.mem_cons_of_mem _ he')) htail
      | two =>
          by_cases hg : vld && phase2ShouldOutput st vs
          · have hstep : stepEv interval st ⟨.two, tnow, vs, vld⟩ =
                (⟨some tnow, vs⟩, some (tnow, .two)) := by
              unfold stepEv
              simp [hg]
            rw [hstep]
            cases hlast : st.last_output with
            | none =>
                have := hemitted .two
                simpa [seedOf, hlast] using this
            | some t0 =>
                show List.Chain' (GapOk interval)
                  (seedOf st ++ ((tnow, EvPhase.two) ::
                    (runEv interval ⟨some tnow, vs⟩ es).2))
                rw [show seedOf st = [(t0, EvPhase.two)] by simp [seedOf, hlast]]
                rw [List.singleton_append, List.chain'_cons]
                refine ⟨fun hb => ?_, by simpa using hemitted .two⟩
                exact absurd hb (by simp)
          · have hstep : stepEv interval st ⟨.two, tnow, vs, vld⟩ = (st, none) := by
              unfold stepEv
              simp [hg]
            rw [hstep]
            show List.Chain' (GapOk interval)
              (seedOf st ++ ([] ++ (runEv interval st es).2))
            rw [List.nil_append]
            exact ihes st
              (fun t ht e' he' => hfut t ht e' (List.mem_cons_of_mem _ he')) htail

/-- Claim C5, amended.  In every trace of processing events with
non-decreasing tick times, any emission produced through the *phase-1*
gate lies at least `interval_ms` after the immediately preceding emission
of either phase.  Phase-2 emissions (the re-evaluation path) are gated
only by validity and value change and may violate the spacing (see the
counterexample). -/
theorem phase1_emissions_respect_interval (interval : Nat) (events : List Ev)
    (hsorted : List.Pairwise (fun a b : Ev => a.now ≤ b.now) events) :
    List.Chain' (GapOk interval) ((runEv interval ⟨none, ""⟩ events).2) := by
  have h := runEv_chain interval events ⟨none, ""⟩
    (fun t ht => absurd ht (by simp)) hsorted
  simpa [seedOf] using h

/-- Witness for C5's amended theorem: two phase-1 emissions 1000 ms apart
with `interval_ms = 1000`. -/
theorem phase1_emissions_respect_interval_witness :
    List.Pairwise (fun a b : Ev => a.now ≤ b.now)
        [⟨.one, 0, "a", true⟩, ⟨.one, 1000, "b", true⟩] ∧
      List.Chain' (GapOk 1000)
        ((runEv 1000 ⟨none, ""⟩
          [⟨.one, 0, "a", true⟩, ⟨.one, 1000, "b", true⟩]).2) :=
  ⟨by decide, phase1_emissions_respect_interval 1000
    [⟨.one, 0, "a", true⟩, ⟨.one, 1000, "b", true⟩] (by decide)⟩

/-! ## Evaluator: phase-2 idempotence (C8)

From `src/src/signal_processor.cpp`: the phase-2 loop of
`process_signal_updates` (iterate `signals_pending_reevaluation`,
re-evaluate each pending derived node, emit only on first-valid or value
change, update `last_output` / `last_output_value`) and the `delayed`
operator of the Lua infrastructure.  A node's transform is a function of
its private state and the frozen monotonic time; its third output is the
effect on the node's membership in `signals_pending_reevaluation`
(`some true` = `mark_pending()`, `some false` = `clear_pending()`,
`none` = untouched). -/

/-- Phase-2 output state of a node (`last_output`,
`last_output_value`). -/
structure P2Out where
  last_output : Option ℚ
  last_output_value : String
deriving DecidableEq, Repr

/-- Apply a pending-set effect to the node's membership bit. -/
def applyEff (p : Option Bool) (m : Bool) : Bool := p.getD m

/-- A node as phase 2 sees it: its compiled transform, the transform's
private Lua state, its output state, and its membership in the pending
set. -/
structure P2Node (σ : Type) where
  f : σ → ℚ → σ × LuaVal × Option Bool
  s : σ
  out : P2Out
  mem : Bool

/-- One phase-2 visit of a node: skip it unless pending; otherwise run the
transform, and emit only if the result is valid (non-nil) and this is the
first-ever output or the canonical text changed — in which case
`last_output`/`last_output_value` are updated. -/
def p2Step {σ : Type} (t : ℚ) (nd : P2Node σ) : P2Node σ × List LuaVal :=
  if nd.mem then
    let r := nd.f nd.s t
    let mem' := applyEff r.2.2 nd.mem
    if r.2.1 ≠ LuaVal.nil then
      if nd.out.last_output = none ∨
          luaToString r.2.1 ≠ nd.out.last_output_value then
        (⟨nd.f, r.1, ⟨some t, luaToString r.2.1⟩, mem'⟩, [r.2.1])
      else (⟨nd.f, r.1, nd.out, mem'⟩, [])
    else (⟨nd.f, r.1, nd.out, mem'⟩, [])
  else (nd, [])

/-- One full phase-2 pass over the pending nodes, collecting the
emissions. -/
def p2Run {σ : Type} (t : ℚ) : List (P2Node σ) → List (P2Node σ) × List LuaVal
  | [] => ([], [])
  | nd :: nds =>
      let r := p2Step t nd
      let rest := p2Run t nds
      (r.1 :: rest.1, r.2 ++ rest.2)

/-- A transform is stable at time `t` when re-running it from the state it
just produced, with the clock unchanged, reproduces the same state and
value and leaves the pending-set membership where the first run put it.
The built-in time-based operators have this property (see
`delayed_stable`). -/
def Stable {σ : Type} (f : σ → ℚ → σ × LuaVal × Option Bool) (t : ℚ) : Prop :=
  ∀ s : σ,
    (f (f s t).1 t).1 = (f s t).1 ∧
      (f (f s t).1 t).2.1 = (f s t).2.1 ∧
      ∀ m : Bool, applyEff (f (f s t).1 t).2.2 (applyEff (f s t).2.2 m) =
        applyEff (f s t).2.2 m

theorem p2Step_twice {σ : Type} (t : ℚ) (nd : P2Node σ) (h : Stable nd.f t) :
    (p2Step t (p2Step t nd).1).2 = [] := by
  obtain ⟨f, s, out, mem⟩ := nd
  obtain ⟨hs, hv, hp⟩ := h s
  have hv' : (f (f s t).1 t).2.1 = (f s t).2.1 := hv
  cases mem with
  | false => rfl
  | true =>
      by_cases hvnil : (f s t).2.1 = LuaVal.nil
      · have hstep1 : p2Step t (⟨f, s, out, true⟩ : P2Node σ) =
            (⟨f, (f s t).1, out, applyEff (f s t).2.2 true⟩, []) := by
          unfold p2Step
          simp [hvnil]
        rw [hstep1]
        cases hm1 : applyEff (f s t).2.2 true with
        | false =>
            unfold p2Step
            simp [hm1]
        | true =>
            unfold p2Step
            simp only [hm1, if_true]
            rw [hv']
            simp [hvnil]
      · by_cases hgate : out.last_output = none ∨
            luaToString (f s t).2.1 ≠ out.last_output_value
        · have hstep1 : p2Step t (⟨f, s, out, true⟩ : P2Node σ) =
              (⟨f, (f s t).1, ⟨some t, luaToString (f s t).2.1⟩,
                applyEff (f s t).2.2 true⟩, [(f s t).2.1]) := by
            unfold p2Step
            simp [hvnil, hgate]
          rw [hstep1]
          cases hm1 : applyEff (f s t).2.2 true with
          | false =>
              unfold p2Step
              simp [hm1]
          | true =>
              unfold p2Step
              simp only [hm1, if_true]
              rw [hv']
              simp [hvnil]
        · obtain ⟨hA, hB⟩ := not_or.mp hgate
          have hBeq : luaToString (f s t).2.1 = out.last_output_value :=
            not_not.mp hB
          have hstep1 : p2Step t (⟨f, s, out, true⟩ : P2Node σ) =
              (⟨f, (f s t).1, out, applyEff (f s t).2.2 true⟩, []) := by
            unfold p2Step
            simp [hvnil, hgate]
          rw [hstep1]
          cases hm1 : applyEff (f s t).2.2 true with
          | false =>
              unfold p2Step
              simp [hm1]
          | true =>
              unfold p2Step
              simp only [hm1, if_true]
              rw [hv']
              simp [hvnil, hA, hBeq]

/-- Claim C8.  Running phase 2 twice in succession with the monotonic clock
frozen and no new updates produces no emissions on the second run: after
the first pass every still-pending node reproduces the same value, which
either was just recorded as `last_output_value` or already failed the
first pass's emission test. -/
theorem phase2_twice_no_emissions {σ : Type} (t : ℚ) (nodes : List (P2Node σ))
    (hst : ∀ nd ∈ nodes, Stable nd.f t) :
    (p2Run t (p2Run t nodes).1).2 = [] := by
  induction nodes with
  | nil => rfl
  | cons nd nds ihnds =>
      have h1 : (p2Run t (nd :: nds)).1 = (p2Step t nd).1 :: (p2Run t nds).1 := rfl
      rw [h1]
      have h2 : (p2Run t ((p2Step t nd).1 :: (p2Run t nds).1)).2 =
          (p2Step t (p2Step t nd).1).2 ++ (p2Run t (p2Run t nds).1).2 := rfl
      rw [h2, p2Step_twice t nd (hst nd (List.mem_cons_self _ _)),
        ihnds (fun x hx => hst x (List.mem_cons_of_mem _ hx))]
      rfl

/-- The private state of the `delayed` operator
(`delay_target_value`, `delay_start_time`, `delay_pending`,
`delay_output_value`).  `start` is only read while `pending` holds, as in
the Lua source. -/
structure DelayedState where
  target : LuaVal
  start : ℚ
  pending : Bool
  output : LuaVal
deriving DecidableEq, Repr

/-- The `delayed(value, delay_ms)` operator from the Lua infrastructure:
on a change of `value` restart the timer and `mark_pending()`; while
pending, deliver the target once `elapsed_ms ≥ delay_ms` (then
`clear_pending()`), else keep `mark_pending()`; always return the current
output value. -/
def delayed (value : LuaVal) (delay_ms : ℚ) (st : DelayedState) (now : ℚ) :
    DelayedState × LuaVal × Option Bool :=
  let r1 : DelayedState × Option Bool :=
    if st.target ≠ value then
      (⟨value, now, true, st.output⟩, some true)
    else (st, none)
  let st1 := r1.1
  if st1.pending then
    if delay_ms ≤ (now - st1.start) * 1000 then
      (⟨st1.target, st1.start, false, st1.target⟩, st1.target, some false)
    else (st1, st1.output, some true)
  else (st1, st1.output, r1.2)

/-- The `delayed` operator is stable at any frozen time: re-running it
changes nothing and leaves the pending membership where the first run put
it. -/
theorem delayed_stable (value : LuaVal) (delay_ms : ℚ) (now : ℚ) :
    Stable (fun s t => delayed value delay_ms s t) now := by
  intro s
  show (delayed value delay_ms (delayed value delay_ms s now).1 now).1 =
        (delayed value delay_ms s now).1 ∧
      (delayed value delay_ms (delayed value delay_ms s now).1 now).2.1 =
        (delayed value delay_ms s now).2.1 ∧
      ∀ m : Bool,
        applyEff (delayed value delay_ms (delayed value delay_ms s now).1 now).2.2
            (applyEff (delayed value delay_ms s now).2.2 m) =
          applyEff (delayed value delay_ms s now).2.2 m
  by_cases hchg : s.target = value
  · by_cases hpend : s.pending
    · by_cases helap : delay_ms ≤ (now - s.start) * 1000
      · have h1 : delayed value delay_ms s now =
            (⟨s.target, s.start, false, s.target⟩, s.target, some false) := by
          unfold delayed
          simp [hchg, hpend, helap]
        have h2 : delayed value delay_ms ⟨s.target, s.start, false, s.target⟩ now =
            (⟨s.target, s.start, false, s.target⟩, s.target, none) := by
          unfold delayed
          simp [hchg]
        rw [h1]
        rw [show (((⟨s.target, s.start, false, s.target⟩ : DelayedState),
          s.target, some false) : DelayedState × LuaVal × Option Bool).1 =
          (⟨s.target, s.start, false, s.target⟩ : DelayedState) from rfl, h2]
        exact ⟨rfl, rfl, fun m => rfl⟩
      · have h1 : delayed value delay_ms s now = (s, s.output, some true) := by
          unfold delayed
          simp [hchg, hpend, helap]
        rw [h1]
        rw [show (((s : DelayedState), s.output, some true) :
          DelayedState × LuaVal × Option Bool).1 = s from rfl, h1]
        exact ⟨rfl, rfl, fun m => rfl⟩
    · have h1 : delayed value delay_ms s now = (s, s.output, none) := by
        unfold delayed
        simp [hchg, hpend]
      rw [h1]
      rw [show (((s : DelayedState), s.output, (none : Option Bool)) :
        DelayedState × LuaVal × Option Bool).1 = s from rfl, h1]
      exact ⟨rfl, rfl, fun m => rfl⟩
  · by_cases helap : delay_ms ≤ (0 : ℚ)
    · have h1 : delayed value delay_ms s now =
          (⟨value, now, false, value⟩, value, some false) := by
        unfold delayed
        simp [hchg, helap]
      have h2 : delayed value delay_ms ⟨value, now, false, value⟩ now =
          (⟨value, now, false, value⟩, value, none) := by
        unfold delayed
        simp
      rw [h1]
      rw [show (((⟨value, now, false, value⟩ : DelayedState), value,
        some false) : DelayedState × LuaVal × Option Bool).1 =
        (⟨value, now, false, value⟩ : DelayedState) from rfl, h2]
      exact ⟨rfl, rfl, fun m => rfl⟩
    · have h1 : delayed value delay_ms s now =
          (⟨value, now, true, s.output⟩, s.output, some true) := by
        unfold delayed
        simp [hchg, helap]
      have h2 : delayed value delay_ms ⟨value, now, true, s.output⟩ now =
          (⟨value, now, true, s.output⟩, s.output, some true) := by
        unfold delayed
        simp [helap]
      rw [h1]
      rw [show (((⟨value, now, true, s.output⟩ : DelayedState), s.output,
        some true) : DelayedState × LuaVal × Option Bool).1 =
        (⟨value, now, true, s.output⟩ : DelayedState) from rfl, h2]
      exact ⟨rfl, rfl, fun m => rfl⟩

/-- A pending `delayed`-node whose 500 ms delay has elapsed by time 1 s:
the first phase-2 pass delivers and emits, the second may not. -/
def delayedNode : P2Node DelayedState :=
  ⟨fun s t => delayed (.num 1) 500 s t, ⟨.num 1, 0, true, .nil⟩, ⟨none, ""⟩, true⟩

/-- Witness for C8: with the single `delayed` node, the second phase-2
pass at the same time emits nothing (the first pass emits the delivered
value once). -/
theorem phase2_twice_no_emissions_witness :
    (∀ nd ∈ [delayedNode], Stable nd.f 1) ∧
      (p2Run 1 (p2Run 1 [delayedNode]).1).2 = [] :=
  ⟨by
      intro nd hnd
      have h : nd = delayedNode := List.mem_singleton.mp hnd
      subst h
      exact delayed_stable (.num 1) 500 1,
    phase2_twice_no_emissions 1 [delayedNode] (by
      intro nd hnd
      have h : nd = delayedNode := List.mem_singleton.mp hnd
      subst h
      exact delayed_stable (.num 1) 500 1)⟩

end Vssdag
